import Mathlib

set_option maxRecDepth 100000

/-!
Verification of the heart-failure notebook's data model and its
split/preprocess procedure.

The notebook's executable cells load a 299 x 13 CSV, rename the columns by
position, and report per-column missing-value counts.  The stratified
60/20/20 split and the per-column feature preprocessing (standardize the six
continuous columns, pass binary columns through, drop the leakage column
"time") are described in the notebook's prose but their code is not part of
the repository, so those operations are modelled from the specification.

Numeric cells are embedded as rationals; a raw (just-parsed) table has
optional cells, where `none` stands for a missing value (NaN).
-/

/-- Cell is a numeric table entry, embedded as a rational. -/
abbrev Cell := ℚ

/-- Dataset is an in-memory table with a named schema: a header of column
names and a list of rows. -/
structure Dataset where
  columns : List String
  rows : List (List Cell)
deriving DecidableEq

/-- RawTable is a just-parsed table whose cells may be missing (`none`
models a NaN produced by the CSV parser). -/
structure RawTable where
  columns : List String
  rows : List (List (Option Cell))
deriving DecidableEq

/-- ConfigurationError reports an invalid split request: proportions that do
not sum to one, or a split granularity that would leave some per-class
partition empty. -/
inductive ConfigurationError where
  | invalidProportions
  | emptyClassPartition
deriving DecidableEq

/-- DivideByZeroError reports a degenerate zero-variance column during the
standardization fit. -/
inductive DivideByZeroError where
  | zeroVariance
deriving DecidableEq

/-- SchemaError reports a column-set mismatch while installing the schema. -/
inductive SchemaError where
  | columnCountMismatch
deriving DecidableEq

/-- Partition is a split of a dataset's row indices into train, validation,
and test index lists. -/
structure Partition where
  train : List ℕ
  val : List ℕ
  test : List ℕ
deriving DecidableEq

instance {ε α : Type} [DecidableEq ε] [DecidableEq α] : DecidableEq (Except ε α) :=
  fun a b =>
    match a, b with
    | .error e, .error e' =>
      decidable_of_iff (e = e') ⟨fun h => by rw [h], fun h => by injection h⟩
    | .error _, .ok _ => isFalse (fun h => by injection h)
    | .ok _, .error _ => isFalse (fun h => by injection h)
    | .ok x, .ok y =>
      decidable_of_iff (x = y) ⟨fun h => by rw [h], fun h => by injection h⟩

/-- schemaNames is the 13-name schema installed by the notebook's rename
cell, in order: 12 features followed by the label. -/
def schemaNames : List String :=
  ["age", "anaemia", "creatinine phosphokinase", "diabetes",
   "ejection fraction", "high blood pressure", "platelets",
   "serum creatinine", "serum sodium", "sex", "smoking", "time",
   "death event"]

/-- labelField is the name of the binary label column. -/
def labelField : String := "death event"

/-- droppedField is the leakage-prone column excluded from the features. -/
def droppedField : String := "time"

/-- continuousFields are the six continuous feature columns that get
standardized. -/
def continuousFields : List String :=
  ["age", "creatinine phosphokinase", "ejection fraction", "platelets",
   "serum creatinine", "serum sodium"]

/-- binaryFields are the five already-0/1 feature columns passed through
unchanged. -/
def binaryFields : List String :=
  ["anaemia", "diabetes", "high blood pressure", "sex", "smoking"]

/-- rawFeatureNames is the raw 12-column feature schema (label excluded). -/
def rawFeatureNames : List String :=
  ["age", "anaemia", "creatinine phosphokinase", "diabetes",
   "ejection fraction", "high blood pressure", "platelets",
   "serum creatinine", "serum sodium", "sex", "smoking", "time"]

/-- colIndex is the position of the first column with the given name (the
length of the list when absent). -/
def colIndex (nm : String) : List String → ℕ
  | [] => 0
  | c :: cs => if c = nm then 0 else colIndex nm cs + 1

/-- removeAt drops the entry at the given position, if any. -/
def removeAt {α : Type} : ℕ → List α → List α
  | _, [] => []
  | 0, _ :: xs => xs
  | n + 1, x :: xs => x :: removeAt n xs

/-- concatMap maps a list-valued function and concatenates the results. -/
def concatMap {α β : Type} (f : α → List β) : List α → List β
  | [] => []
  | x :: xs => f x ++ concatMap f xs

/-- Modelled from the spec: the column-dropping step of the (absent)
preprocessing code.  The named column is removed from the header and the
corresponding position is removed from every row. -/
def dropColumn (nm : String) (cols : List String) (rows : List (List Cell)) :
    List String × List (List Cell) :=
  (removeAt (colIndex nm cols) cols, rows.map (fun r => removeAt (colIndex nm cols) r))

/-- labelColumn reads the values of the named column, row by row (0 for a
row too short to have that column). -/
def labelColumn (ds : Dataset) (nm : String) : List ℚ :=
  ds.rows.map (fun r => r.getD (colIndex nm ds.columns) 0)

/-- classIndices lists the row indices holding a given label value, in
increasing order. -/
def classIndices (labels : List ℚ) (c : ℚ) : List ℕ :=
  (List.range labels.length).filter (fun i => labels[i]? = some c)

/-- award hands out the remaining seats one at a time, each to the partition
with the currently largest remainder, ties going to the later partition. -/
def award : ℕ → ℚ × ℚ × ℚ → ℕ × ℕ × ℕ → ℕ × ℕ × ℕ
  | 0, _, k => k
  | s + 1, (r1, r2, r3), (k1, k2, k3) =>
    if r1 > r2 ∧ r1 > r3 then award s (r1 - 1, r2, r3) (k1 + 1, k2, k3)
    else if r2 > r3 then award s (r1, r2 - 1, r3) (k1, k2 + 1, k3)
    else award s (r1, r2, r3 - 1) (k1, k2, k3 + 1)

/-- Modelled from the spec: the deterministic largest-remainder rounding of
one class's size into train/validation/test counts.  Each count starts at
the floor of its quota `p_j * n` and the leftover seats go to the largest
remainders, ties to the later partition. -/
def lrCounts (p1 p2 p3 : ℚ) (n : ℕ) : ℕ × ℕ × ℕ :=
  let q1 : ℚ := p1 * n
  let q2 : ℚ := p2 * n
  let q3 : ℚ := p3 * n
  let f1 : ℕ := (Rat.floor q1).toNat
  let f2 : ℕ := (Rat.floor q2).toNat
  let f3 : ℕ := (Rat.floor q3).toNat
  award (n - (f1 + f2 + f3)) (q1 - f1, q2 - f2, q3 - f3) (f1, f2, f3)

/-- hasEmptyPart is true when some per-class partition count is zero. -/
def hasEmptyPart (k : ℕ × ℕ × ℕ) : Bool :=
  k.1 = 0 ∨ k.2.1 = 0 ∨ k.2.2 = 0

/-- classSegments cuts one class's index list into its train, validation,
and test segments according to the rounded counts. -/
def classSegments (labels : List ℚ) (p1 p2 p3 : ℚ) (c : ℚ) :
    List ℕ × List ℕ × List ℕ :=
  let idxs := classIndices labels c
  let k := lrCounts p1 p2 p3 idxs.length
  (idxs.take k.1, (idxs.drop k.1).take k.2.1, (idxs.drop k.1).drop k.2.1)

/-- Modelled from the spec: the DatasetSplitter (the notebook's stratified
split code is not in the repository).  It validates the proportions, then
splits each label class independently by largest-remainder rounding and
unions the per-class segments.  Both error conditions are checked before any
partition is built. -/
def split (ds : Dataset) (nm : String) (p1 p2 p3 : ℚ) :
    Except ConfigurationError Partition :=
  if p1 + p2 + p3 ≠ 1 then .error .invalidProportions
  else if ((labelColumn ds nm).dedup).any
      (fun c => hasEmptyPart
        (lrCounts p1 p2 p3 (classIndices (labelColumn ds nm) c).length)) then
    .error .emptyClassPartition
  else
    .ok ⟨concatMap (fun c => (classSegments (labelColumn ds nm) p1 p2 p3 c).1)
           (labelColumn ds nm).dedup,
         concatMap (fun c => (classSegments (labelColumn ds nm) p1 p2 p3 c).2.1)
           (labelColumn ds nm).dedup,
         concatMap (fun c => (classSegments (labelColumn ds nm) p1 p2 p3 c).2.2)
           (labelColumn ds nm).dedup⟩

/-- mean of a list of rationals (0 for the empty list). -/
def mean (xs : List ℚ) : ℚ := xs.sum / xs.length

/-- popVar is the population variance of a list of rationals, the statistic
the standardization fit divides by (squared). -/
def popVar (xs : List ℚ) : ℚ :=
  (xs.map (fun x => (x - mean xs) ^ 2)).sum / xs.length

/-- FittedTransform holds the frozen per-continuous-column statistics
(mean, population variance) computed from the train partition; the standard
deviation is the square root of the stored variance. -/
structure FittedTransform where
  stats : List (ℚ × ℚ)
deriving DecidableEq

/-- Modelled from the spec: fitting the per-column standardization on the
train partition's continuous columns.  A zero-variance (constant) column
makes the whole fit fail, so no partially-fitted transform can be observed. -/
def fitTransform (cont : List (List ℚ)) : Except DivideByZeroError FittedTransform :=
  if cont.any (fun xs => popVar xs = 0) then .error .zeroVariance
  else .ok ⟨cont.map (fun xs => (mean xs, popVar xs))⟩

/-- standardize shifts by the fitted mean and divides by the supplied
standard deviation. -/
def standardize (mu s : ℚ) (xs : List ℚ) : List ℚ :=
  xs.map (fun x => (x - mu) / s)

/-- applyCont standardizes the continuous columns one by one against the
fitted statistics.  The standard deviations are supplied as a separate list
because the square root of a rational variance is irrational in general;
a valid choice satisfies `s ^ 2 = variance`. -/
def applyCont : List (ℚ × ℚ) → List ℚ → List (List ℚ) → List (List ℚ)
  | (mu, _) :: ps, s :: ss, xs :: cs => standardize mu s xs :: applyCont ps ss cs
  | _, _, _ => []

/-- Modelled from the spec: applying a fitted transform to one partition's
feature columns.  Continuous columns are standardized with the frozen train
statistics; binary columns pass through unchanged. -/
def applyFitted (ft : FittedTransform) (stds : List ℚ)
    (cont bin : List (List ℚ)) : List (List ℚ) × List (List ℚ) :=
  (applyCont ft.stats stds cont, bin)

/-- applyTransformStep threads the transform through an application, making
explicit that applying it returns the stored parameters untouched. -/
def applyTransformStep (ft : FittedTransform) (stds : List ℚ)
    (cont bin : List (List ℚ)) :
    (List (List ℚ) × List (List ℚ)) × FittedTransform :=
  (applyFitted ft stds cont bin, ft)

/-- Modelled from the spec: the whole preprocessing pass.  The transform is
fitted once, on the train partition's continuous columns only, and the same
fitted transform is applied to train, validation, and test. -/
def preprocessPartitions (trainC trainB valC valB testC testB : List (List ℚ))
    (stds : List ℚ) :
    Except DivideByZeroError
      (FittedTransform × (List (List ℚ) × List (List ℚ)) ×
        (List (List ℚ) × List (List ℚ)) × (List (List ℚ) × List (List ℚ))) :=
  (fitTransform trainC).map
    (fun ft => (ft, applyFitted ft stds trainC trainB,
                applyFitted ft stds valC valB, applyFitted ft stds testC testB))

/-- PipelineError wraps either component's error. -/
inductive PipelineError where
  | config (e : ConfigurationError)
  | divZero (e : DivideByZeroError)
deriving DecidableEq

/-- PipelineOutput bundles the partition, the fitted transform, and the
three transformed (continuous, binary) feature matrices. -/
structure PipelineOutput where
  part : Partition
  ft : FittedTransform
  trainOut : List (List ℚ) × List (List ℚ)
  valOut : List (List ℚ) × List (List ℚ)
  testOut : List (List ℚ) × List (List ℚ)

/-- colValues reads the named column's values at the given row indices. -/
def colValues (ds : Dataset) (idxs : List ℕ) (nm : String) : List ℚ :=
  idxs.filterMap (fun i => (ds.rows[i]?).map (fun r => r.getD (colIndex nm ds.columns) 0))

/-- contMatrix is one partition's continuous feature columns. -/
def contMatrix (ds : Dataset) (idxs : List ℕ) : List (List ℚ) :=
  continuousFields.map (colValues ds idxs)

/-- binMatrix is one partition's binary feature columns. -/
def binMatrix (ds : Dataset) (idxs : List ℕ) : List (List ℚ) :=
  binaryFields.map (colValues ds idxs)

/-- runPipeline runs split then fit then the three applications, threading
the source dataset through so that its preservation is an explicit output. -/
def runPipeline (ds : Dataset) (stds : List ℚ) :
    Except PipelineError PipelineOutput × Dataset :=
  match split ds labelField (3 / 5) (1 / 5) (1 / 5) with
  | .error e => (.error (.config e), ds)
  | .ok part =>
    match fitTransform (contMatrix ds part.train) with
    | .error e => (.error (.divZero e), ds)
    | .ok ft =>
      (.ok ⟨part, ft, applyFitted ft stds (contMatrix ds part.train) (binMatrix ds part.train),
            applyFitted ft stds (contMatrix ds part.val) (binMatrix ds part.val),
            applyFitted ft stds (contMatrix ds part.test) (binMatrix ds part.test)⟩, ds)

/-- missingCount is the number of rows whose cell in the given column is
missing, mirroring one entry of the notebook's isnull-sum report. -/
def missingCount (t : RawTable) (j : ℕ) : ℕ :=
  t.rows.countP (fun r => r.getD j (some 0) = none)

/-- missingCounts is the per-column missing-value report the notebook
computes with an isnull sum over axis 0. -/
def missingCounts (t : RawTable) : List ℕ :=
  (List.range t.columns.length).map (missingCount t)

/-- FullyPopulated says every cell present in the table carries a value. -/
def FullyPopulated (t : RawTable) : Prop :=
  ∀ r ∈ t.rows, ∀ c ∈ r, c ≠ none

/-- renameColumns is the notebook's rename cell: it installs the 13 schema
names purely by position, requiring only that the column counts match, and
touches neither the cells nor the row count. -/
def renameColumns (t : RawTable) : Except SchemaError RawTable :=
  if t.columns.length = schemaNames.length then .ok ⟨schemaNames, t.rows⟩
  else .error .columnCountMismatch

/-- classFraction is the fraction of the given label class among the rows
picked out by an index list. -/
def classFraction (labels : List ℚ) (idxs : List ℕ) (c : ℚ) : ℚ :=
  ((idxs.countP (fun i => labels[i]? = some c) : ℕ) : ℚ) / idxs.length

/-- fullFraction is the fraction of the given label class in the whole
dataset. -/
def fullFraction (labels : List ℚ) (c : ℚ) : ℚ :=
  ((labels.count c : ℕ) : ℚ) / labels.length

/-- Modelled from the spec: the label column of the 299-row input, which has
203 surviving patients (death event 0) and 96 deceased ones (death event 1);
the CSV itself is not part of the repository. -/
def heartLabels : List ℚ := List.replicate 203 0 ++ List.replicate 96 1

/-- heartDS is a dataset carrying the modelled label column (the split reads
only the label column). -/
def heartDS : Dataset := ⟨[labelField], heartLabels.map (fun v => [v])⟩

/-- counterLabels is a 101-row, ten-class label column: nine classes of 8
rows each and one class (label 9) of 29 rows. -/
def counterLabels : List ℚ :=
  concatMap (fun k => List.replicate 8 ((k : ℕ) : ℚ)) (List.range 9) ++
    List.replicate 29 9

/-- counterDS is the dataset carrying `counterLabels`. -/
def counterDS : Dataset := ⟨[labelField], counterLabels.map (fun v => [v])⟩

/-- smallDS is a ten-row, two-class dataset used to exercise the splitter on
a concrete input. -/
def smallDS : Dataset :=
  ⟨[labelField], [[0], [0], [0], [0], [0], [1], [1], [1], [1], [1]]⟩

/-- smallPart is the partition the splitter produces on `smallDS`. -/
def smallPart : Partition := ⟨[0, 1, 2, 5, 6, 7], [3, 8], [4, 9]⟩

/-- rawHeartTable models the parsed 299 x 13 input table with no missing
cell, matching the notebook's recorded isnull report. -/
def rawHeartTable : RawTable :=
  ⟨schemaNames, List.replicate 299 (List.replicate 13 (some 0))⟩

/-- junkHeaderTable is a table whose 13 header names are all wrong. -/
def junkHeaderTable : RawTable := ⟨List.replicate 13 "col", [[some 1], [some 2]]⟩

section HelperLemmas

theorem ratFloor_eq_intFloor (q : ℚ) : Rat.floor q = ⌊q⌋ :=
  (Rat.floor_def' q).trans Rat.floor_def.symm

theorem colIndex_lt_length {nm : String} :
    ∀ {cols : List String}, nm ∈ cols → colIndex nm cols < cols.length
  | [], h => by cases h
  | c :: cs, h => by
    by_cases hc : c = nm
    · simp [colIndex, hc]
    · have hmem : nm ∈ cs := by
        rcases List.mem_cons.1 h with h' | h'
        · exact absurd h'.symm hc
        · exact h'
      simpa [colIndex, hc] using colIndex_lt_length hmem

theorem removeAt_length {α : Type} :
    ∀ (i : ℕ) (l : List α), i < l.length → (removeAt i l).length = l.length - 1
  | _, [], h => by cases h
  | 0, _ :: xs, _ => by simp [removeAt]
  | i + 1, x :: xs, h => by
    have := removeAt_length i xs (by simpa using h)
    simp only [removeAt, List.length_cons, this]
    have : 0 < xs.length := by
      have := Nat.lt_of_succ_lt_succ (by simpa using h)
      omega
    omega

theorem notMem_removeAt_colIndex {nm : String} :
    ∀ {cols : List String}, cols.Nodup → nm ∈ cols →
      nm ∉ removeAt (colIndex nm cols) cols
  | [], _, h => by cases h
  | c :: cs, hnd, h => by
    rcases List.nodup_cons.1 hnd with ⟨hc, hcs⟩
    by_cases he : c = nm
    · simpa [colIndex, he, removeAt] using (he ▸ hc)
    · have hmem : nm ∈ cs := by
        rcases List.mem_cons.1 h with h' | h'
        · exact absurd h'.symm he
        · exact h'
      simp only [colIndex, he, if_false, removeAt, List.mem_cons]
      rintro (rfl | hin)
      · exact he rfl
      · exact notMem_removeAt_colIndex hcs hmem hin

theorem count_concatMap {α β : Type} [DecidableEq β] (f : α → List β) (a : β) :
    ∀ l : List α, (concatMap f l).count a = (l.map (fun x => (f x).count a)).sum
  | [] => rfl
  | x :: xs => by
    simp [concatMap, List.count_append, count_concatMap f a xs]

theorem sum_map_add {α : Type} (f g : α → ℕ) :
    ∀ l : List α, (l.map f).sum + (l.map g).sum = (l.map (fun x => f x + g x)).sum
  | [] => rfl
  | x :: xs => by
    simp only [List.map_cons, List.sum_cons]
    have := sum_map_add f g xs
    omega

theorem count_range (a n : ℕ) : (List.range n).count a = if a < n then 1 else 0 := by
  by_cases h : a < n
  · rw [if_pos h]
    exact List.count_eq_one_of_mem (List.nodup_range n) (List.mem_range.2 h)
  · rw [if_neg h]
    exact List.count_eq_zero.2 (fun hm => h (List.mem_range.1 hm))

theorem count_filter_bool {α : Type} [DecidableEq α] (p : α → Bool) (a : α) (l : List α) :
    (l.filter p).count a = if p a then l.count a else 0 := by
  by_cases h : p a
  · rw [if_pos h, List.count_filter h]
  · rw [if_neg h]
    refine List.count_eq_zero.2 (fun hm => h ?_)
    exact (List.mem_filter.1 hm).2

theorem sum_map_indicator_count (v : ℚ) :
    ∀ cs : List ℚ, (cs.map (fun c => if v = c then (1 : ℕ) else 0)).sum = cs.count v
  | [] => rfl
  | c :: cs => by
    have ih := sum_map_indicator_count v cs
    simp only [List.map_cons, List.sum_cons, List.count_cons, beq_iff_eq, ih]
    by_cases h : v = c
    · rw [if_pos h, if_pos h.symm]
      omega
    · rw [if_neg h, if_neg (fun hh => h hh.symm)]
      omega

theorem sum_map_sub_div (mu s : ℚ) :
    ∀ xs : List ℚ, ((xs.map (fun x => (x - mu) / s)).sum) = (xs.sum - xs.length * mu) / s
  | [] => by simp
  | x :: xs => by
    simp only [List.map_cons, List.sum_cons, sum_map_sub_div mu s xs, List.length_cons]
    push_cast
    ring

theorem sum_map_sq_div (mu s : ℚ) :
    ∀ xs : List ℚ,
      ((xs.map (fun x => ((x - mu) / s) ^ 2)).sum) = (xs.map (fun x => (x - mu) ^ 2)).sum / s ^ 2
  | [] => by simp
  | x :: xs => by
    simp only [List.map_cons, List.sum_cons, sum_map_sq_div mu s xs]
    rw [div_pow]
    ring

theorem length_cast_ne_zero {xs : List ℚ} (h : xs ≠ []) : ((xs.length : ℚ)) ≠ 0 := by
  have : xs.length ≠ 0 := fun h0 => h (List.length_eq_zero.1 h0)
  exact_mod_cast this

theorem mean_standardize {xs : List ℚ} (s : ℚ) (hne : xs ≠ []) :
    mean (standardize (mean xs) s xs) = 0 := by
  have hlen : ((xs.length : ℚ)) ≠ 0 := length_cast_ne_zero hne
  simp only [mean, standardize, sum_map_sub_div, List.length_map]
  rw [mul_div_cancel₀ _ hlen]
  simp

theorem popVar_standardize {xs : List ℚ} {s : ℚ} (hne : xs ≠ []) (hs : s ≠ 0)
    (hv : s ^ 2 = popVar xs) : popVar (standardize (mean xs) s xs) = 1 := by
  have hmean := mean_standardize s hne
  have hs2 : s ^ 2 ≠ 0 := pow_ne_zero 2 hs
  rw [popVar, hmean]
  simp only [sub_zero, standardize, List.map_map, List.length_map, Function.comp_def]
  rw [sum_map_sq_div, div_right_comm]
  rw [show ((xs.map (fun x => (x - mean xs) ^ 2)).sum / xs.length) = popVar xs from rfl]
  rw [← hv, div_self hs2]

theorem sum_of_const {c : ℚ} : ∀ {xs : List ℚ}, (∀ x ∈ xs, x = c) → xs.sum = xs.length * c
  | [], _ => by simp
  | x :: xs, h => by
    have hx : x = c := h x (List.mem_cons_self x xs)
    have ih := sum_of_const (fun y hy => h y (List.mem_cons_of_mem x hy))
    simp only [List.sum_cons, ih, hx, List.length_cons]
    push_cast
    ring

theorem mean_of_const {c : ℚ} {xs : List ℚ} (hne : xs ≠ []) (h : ∀ x ∈ xs, x = c) :
    mean xs = c := by
  have hlen : ((xs.length : ℚ)) ≠ 0 := length_cast_ne_zero hne
  rw [mean, sum_of_const h, mul_comm, mul_div_assoc, div_self hlen, mul_one]

theorem popVar_of_const {xs : List ℚ} (h : ∀ a ∈ xs, ∀ b ∈ xs, a = b) : popVar xs = 0 := by
  cases hxs : xs with
  | nil => simp [popVar, mean]
  | cons x l =>
    subst hxs
    have hc : ∀ y ∈ x :: l, y = x := fun y hy => h y hy x (List.mem_cons_self x l)
    have hm : mean (x :: l) = x := mean_of_const (by simp) hc
    have hz : ((x :: l).map (fun y => (y - mean (x :: l)) ^ 2)).sum = 0 := by
      refine List.sum_eq_zero (fun z hz => ?_)
      rcases List.mem_map.1 hz with ⟨y, hy, rfl⟩
      rw [hc y hy, hm]
      ring
    rw [popVar, hz, zero_div]

theorem fitTransform_ok_iff {cont : List (List ℚ)} {ft : FittedTransform}
    (h : fitTransform cont = .ok ft) :
    ft.stats = cont.map (fun xs => (mean xs, popVar xs)) ∧ ∀ xs ∈ cont, popVar xs ≠ 0 := by
  rw [fitTransform] at h
  split_ifs at h with hc
  injection h with h'
  subst h'
  exact ⟨rfl, fun xs hxs hv => hc (List.any_eq_true.2 ⟨xs, hxs, by simp [hv]⟩)⟩

theorem classSegments_flatten (labels : List ℚ) (p1 p2 p3 c : ℚ) :
    (classSegments labels p1 p2 p3 c).1 ++
      ((classSegments labels p1 p2 p3 c).2.1 ++ (classSegments labels p1 p2 p3 c).2.2) =
      classIndices labels c := by
  simp only [classSegments, List.take_append_drop]

theorem count_classIndices (labels : List ℚ) (c : ℚ) (a : ℕ) :
    (classIndices labels c).count a =
      if (labels[a]? = some c ∧ a < labels.length) then 1 else 0 := by
  rw [classIndices, count_filter_bool, count_range]
  by_cases h1 : labels[a]? = some c
  · by_cases h2 : a < labels.length
    · simp [h1, h2]
    · simp [h1, h2]
  · simp [h1]

theorem sum_dedup_count_classIndices (labels : List ℚ) (a : ℕ) :
    ((labels.dedup.map (fun c => (classIndices labels c).count a)).sum) =
      if a < labels.length then 1 else 0 := by
  by_cases ha : a < labels.length
  · obtain ⟨v, hv⟩ : ∃ v, labels[a]? = some v := by
      cases hh : labels[a]? with
      | none =>
        exact absurd (List.getElem?_eq_none_iff.1 hh) (by omega)
      | some v => exact ⟨v, rfl⟩
    have hmap : labels.dedup.map (fun c => (classIndices labels c).count a) =
        labels.dedup.map (fun c => if v = c then 1 else 0) := by
      refine List.map_congr_left (fun c _ => ?_)
      rw [count_classIndices, hv]
      by_cases hvc : v = c
      · simp [hvc, ha]
      · simp [ha, hvc, fun hh : c = v => hvc hh.symm]
    rw [hmap, sum_map_indicator_count, if_pos ha]
    exact List.count_eq_one_of_mem (List.nodup_dedup labels)
      (List.mem_dedup.2 (List.getElem?_mem hv))
  · rw [if_neg ha]
    refine List.sum_eq_zero (fun z hz => ?_)
    rcases List.mem_map.1 hz with ⟨c, _, rfl⟩
    rw [count_classIndices]
    simp [ha]

end HelperLemmas

/-- Claim C1: the fitted transform's per-column parameters are computed exclusively
from the train partition's continuous columns — the transform produced by the
whole preprocessing pass equals the one fitted from the train matrix alone,
whatever the validation and test matrices are — and applying a fitted
transform to any partition returns its stored parameters unchanged. -/
theorem transform_params_frozen_after_fit
    (trainC trainB valC valB testC testB : List (List ℚ)) (stds : List ℚ)
    (ft : FittedTransform) (cont bin : List (List ℚ)) :
    (preprocessPartitions trainC trainB valC valB testC testB stds).map Prod.fst =
        fitTransform trainC ∧
      (applyTransformStep ft stds cont bin).2 = ft := by
  refine ⟨?_, rfl⟩
  cases h : fitTransform trainC <;> simp [preprocessPartitions, h, Except.map]

/-- Claim C4: dropping the leakage column removes it from the header (given a
duplicate-free header that contains it), shrinks the column count by exactly
one, and keeps the row count unchanged. -/
theorem dropColumn_removes_leakage_column (nm : String) (cols : List String)
    (rows : List (List Cell)) (hnd : cols.Nodup) (hmem : nm ∈ cols) :
    nm ∉ (dropColumn nm cols rows).1 ∧
      (dropColumn nm cols rows).1.length = cols.length - 1 ∧
      (dropColumn nm cols rows).2.length = rows.length :=
  ⟨notMem_removeAt_colIndex hnd hmem,
   removeAt_length _ _ (colIndex_lt_length hmem),
   by simp [dropColumn]⟩

/-- Witness for C4 at the notebook's 12-name raw feature schema: dropping
"time" leaves 11 columns and the three rows intact. -/
theorem dropColumn_removes_leakage_column_witness :
    droppedField ∉ (dropColumn droppedField rawFeatureNames [[1], [2], [3]]).1 ∧
      (dropColumn droppedField rawFeatureNames [[1], [2], [3]]).1.length =
        rawFeatureNames.length - 1 ∧
      (dropColumn droppedField rawFeatureNames [[1], [2], [3]]).2.length =
        ([[1], [2], [3]] : List (List Cell)).length :=
  dropColumn_removes_leakage_column droppedField rawFeatureNames [[1], [2], [3]]
    (by decide) (by decide)

/-- Claim C5: the splitter fails if and only if the proportions do not sum to one
or some per-class partition count would be zero; both conditions are decided
on the requested configuration alone, before any partition is built. -/
theorem split_error_iff_invalid_config (ds : Dataset) (nm : String) (p1 p2 p3 : ℚ) :
    (∃ e, split ds nm p1 p2 p3 = .error e) ↔
      (p1 + p2 + p3 ≠ 1 ∨
        ∃ c ∈ (labelColumn ds nm).dedup,
          hasEmptyPart
            (lrCounts p1 p2 p3 (classIndices (labelColumn ds nm) c).length) = true) := by
  by_cases hp : p1 + p2 + p3 = 1
  · rw [split, if_neg (by simp [hp])]
    by_cases ha : ((labelColumn ds nm).dedup).any
        (fun c => hasEmptyPart
          (lrCounts p1 p2 p3 (classIndices (labelColumn ds nm) c).length)) = true
    · rw [if_pos ha]
      constructor
      · intro _
        exact Or.inr (by simpa using List.any_eq_true.1 ha)
      · intro _
        exact ⟨.emptyClassPartition, rfl⟩
    · rw [if_neg ha]
      constructor
      · rintro ⟨e, he⟩
        cases he
      · rintro (h | h)
        · exact absurd hp h
        · exact absurd (List.any_eq_true.2 (by simpa using h)) ha
  · rw [split, if_pos hp]
    exact ⟨fun _ => Or.inl hp, fun _ => ⟨.invalidProportions, rfl⟩⟩

/-- Claim C6: a constant (zero-variance) continuous column in the train partition
makes the fit fail with the divide-by-zero error, so no fitted transform —
partial or otherwise — is produced. -/
theorem zero_variance_fit_fails (cont : List (List ℚ))
    (h : ∃ xs ∈ cont, ∀ a ∈ xs, ∀ b ∈ xs, a = b) :
    fitTransform cont = .error .zeroVariance := by
  rcases h with ⟨xs, hmem, hall⟩
  have hv : popVar xs = 0 := popVar_of_const hall
  rw [fitTransform, if_pos (List.any_eq_true.2 ⟨xs, hmem, by simp [hv]⟩)]

/-- Witness for C6 at a concrete constant column. -/
theorem zero_variance_fit_fails_witness :
    fitTransform [[5, 5]] = .error .zeroVariance :=
  zero_variance_fit_fails [[5, 5]] ⟨[5, 5], by simp, by decide⟩

/-- Claim C8: neither splitting nor preprocessing mutates the source dataset: the
dataset threaded through the whole pipeline comes out with every column name
and every row (hence every cell) unchanged. -/
theorem pipeline_preserves_source_dataset (ds : Dataset) (stds : List ℚ) :
    (runPipeline ds stds).2.columns = ds.columns ∧
      (runPipeline ds stds).2.rows = ds.rows := by
  unfold runPipeline
  constructor
  · split
    · rfl
    · split <;> rfl
  · split
    · rfl
    · split <;> rfl

/-- Claim C9: on a fully populated table with the 13-column schema the notebook's
missing-value report is zero for every column. -/
theorem fully_populated_missing_counts_zero (t : RawTable)
    (h13 : t.columns.length = 13) (hfull : FullyPopulated t) :
    missingCounts t = List.replicate 13 0 := by
  have hzero : ∀ j, missingCount t j = 0 := by
    intro j
    rw [missingCount, List.countP_eq_zero]
    intro r hr
    simp only [decide_eq_true_eq]
    rw [List.getD_eq_getElem?_getD]
    cases hg : r[j]? with
    | none => simp
    | some c =>
      have hc := hfull r hr c (List.getElem?_mem hg)
      simpa using hc
  rw [missingCounts, h13]
  have hm : (List.range 13).map (missingCount t) = (List.range 13).map (fun _ => 0) :=
    List.map_congr_left (fun j _ => hzero j)
  rw [hm]
  rfl

/-- Witness for C9 at the modelled 299 x 13 fully populated table. -/
theorem fully_populated_missing_counts_zero_witness :
    missingCounts rawHeartTable = List.replicate 13 0 :=
  fully_populated_missing_counts_zero rawHeartTable rfl
    (fun r hr c hc => by
      rw [List.eq_of_mem_replicate hr] at hc
      rw [List.eq_of_mem_replicate hc]
      simp)

/-- Claim C10: on any parsed table with exactly 13 columns the rename step
succeeds, installs the schema names purely by position — the result does not
depend on the original header names — and leaves the rows (cells and row
count) untouched. -/
theorem rename_by_position_succeeds (t : RawTable) (h : t.columns.length = 13) :
    renameColumns t = .ok ⟨schemaNames, t.rows⟩ := by
  have hc : t.columns.length = schemaNames.length := by rw [h]; rfl
  rw [renameColumns, if_pos hc]

/-- Claim C2: whenever the splitter succeeds, the three index lists it returns are
a permutation of the full row-index range — every row index lands in exactly
one of train, validation, test. -/
theorem stratified_split_partitions_indices (ds : Dataset) (nm : String)
    (p1 p2 p3 : ℚ) (part : Partition)
    (h : split ds nm p1 p2 p3 = .ok part) :
    (part.train ++ part.val ++ part.test).Perm (List.range ds.rows.length) := by
  rw [split] at h
  split_ifs at h with hp ha
  injection h with h'
  subst h'
  rw [List.perm_iff_count]
  intro a
  simp only [List.count_append]
  rw [count_concatMap, count_concatMap, count_concatMap, sum_map_add, sum_map_add]
  have hlen : (labelColumn ds nm).length = ds.rows.length := by simp [labelColumn]
  rw [count_range, ← hlen, ← sum_dedup_count_classIndices (labelColumn ds nm) a]
  congr 1
  refine List.map_congr_left (fun c _ => ?_)
  rw [← classSegments_flatten (labelColumn ds nm) p1 p2 p3 c, List.count_append,
    List.count_append]
  omega

/-- Witness for C2: the ten-row two-class dataset splits into
[0,1,2,5,6,7] / [3,8] / [4,9], a permutation of 0..9. -/
theorem stratified_split_partitions_indices_witness :
    split smallDS labelField (3 / 5) (1 / 5) (1 / 5) = .ok smallPart ∧
      (smallPart.train ++ smallPart.val ++ smallPart.test).Perm
        (List.range smallDS.rows.length) :=
  ⟨by with_unfolding_all rfl,
   stratified_split_partitions_indices smallDS labelField (3 / 5) (1 / 5) (1 / 5)
     smallPart (by with_unfolding_all rfl)⟩

theorem applyCont_standardized :
    ∀ (cont : List (List ℚ)) (stds : List ℚ),
      (∀ xs ∈ cont, xs ≠ []) →
      List.Forall₂ (fun s (p : ℚ × ℚ) => s ≠ 0 ∧ s ^ 2 = p.2) stds
        (cont.map (fun xs => (mean xs, popVar xs))) →
      ∀ ys ∈ applyCont (cont.map (fun xs => (mean xs, popVar xs))) stds cont,
        mean ys = 0 ∧ popVar ys = 1
  | [], stds, _, _ => by
    intro ys hys
    cases stds <;> simp [applyCont] at hys
  | x :: cs, stds, hne, hstd => by
    cases hstd with
    | cons hh htl =>
      rename_i s ss
      intro ys hys
      simp only [applyCont, List.mem_cons] at hys
      rcases hys with rfl | hys
      · have hx : x ≠ [] := hne x (List.mem_cons_self x cs)
        refine ⟨mean_standardize s hx, ?_⟩
        exact popVar_standardize hx hh.1 (by simpa using hh.2)
      · exact applyCont_standardized cs ss
          (fun xs hx => hne xs (List.mem_cons_of_mem x hx)) htl ys hys

/-- Claim C7: when the fit on the train partition succeeds (all continuous columns
nonempty with nonzero variance) and the supplied standard deviations are the
square roots of the fitted variances, transforming the train partition gives
every continuous column mean exactly 0 and population variance exactly 1,
while the binary columns pass through unchanged. -/
theorem standardized_train_mean_zero_var_one (cont bin : List (List ℚ))
    (stds : List ℚ) (ft : FittedTransform)
    (hfit : fitTransform cont = .ok ft) (hne : ∀ xs ∈ cont, xs ≠ [])
    (hstd : List.Forall₂ (fun s (p : ℚ × ℚ) => s ≠ 0 ∧ s ^ 2 = p.2) stds ft.stats) :
    (∀ ys ∈ (applyFitted ft stds cont bin).1, mean ys = 0 ∧ popVar ys = 1) ∧
      (applyFitted ft stds cont bin).2 = bin := by
  have hstats := (fitTransform_ok_iff hfit).1
  refine ⟨?_, rfl⟩
  show ∀ ys ∈ applyCont ft.stats stds cont, mean ys = 0 ∧ popVar ys = 1
  rw [hstats] at hstd ⊢
  exact applyCont_standardized cont stds hne hstd

/-- Witness for C7 at the train column [0, 2]: fitted mean 1, variance 1,
standard deviation 1; the standardized column [-1, 1] has mean 0 and
variance 1, and the binary column [0, 1] passes through. -/
theorem standardized_train_mean_zero_var_one_witness :
    (∀ ys ∈ (applyFitted ⟨[(1, 1)]⟩ [1] [[0, 2]] [[0, 1]]).1,
        mean ys = 0 ∧ popVar ys = 1) ∧
      (applyFitted (⟨[(1, 1)]⟩ : FittedTransform) [1] [[0, 2]] [[0, 1]]).2 = [[0, 1]] :=
  standardized_train_mean_zero_var_one [[0, 2]] [[0, 1]] [1] ⟨[(1, 1)]⟩
    (by with_unfolding_all rfl) (by decide)
    (List.Forall₂.cons ⟨by norm_num, by norm_num⟩ List.Forall₂.nil)

theorem lr_residue0 (m : ℕ) : lrCounts (3 / 5) (1 / 5) (1 / 5) (5 * m) = (3 * m, m, m) := by
  have h1 : Rat.floor ((3 / 5 : ℚ) * ((5 * m : ℕ) : ℚ)) = 3 * (m : ℤ) := by
    rw [ratFloor_eq_intFloor, Int.floor_eq_iff]
    push_cast
    constructor <;> linarith
  have h2 : Rat.floor ((1 / 5 : ℚ) * ((5 * m : ℕ) : ℚ)) = (m : ℤ) := by
    rw [ratFloor_eq_intFloor, Int.floor_eq_iff]
    push_cast
    constructor <;> linarith
  simp only [lrCounts, h1, h2]
  have t1 : (3 * (m : ℤ)).toNat = 3 * m := by omega
  have t2 : ((m : ℤ)).toNat = m := by omega
  rw [t1, t2]
  have hs : 5 * m - (3 * m + m + m) = 0 := by omega
  rw [hs, award]

theorem lr_residue1 (m : ℕ) :
    lrCounts (3 / 5) (1 / 5) (1 / 5) (5 * m + 1) = (3 * m + 1, m, m) := by
  have h1 : Rat.floor ((3 / 5 : ℚ) * ((5 * m + 1 : ℕ) : ℚ)) = 3 * (m : ℤ) := by
    rw [ratFloor_eq_intFloor, Int.floor_eq_iff]
    push_cast
    constructor <;> linarith
  have h2 : Rat.floor ((1 / 5 : ℚ) * ((5 * m + 1 : ℕ) : ℚ)) = (m : ℤ) := by
    rw [ratFloor_eq_intFloor, Int.floor_eq_iff]
    push_cast
    constructor <;> linarith
  simp only [lrCounts, h1, h2]
  have t1 : (3 * (m : ℤ)).toNat = 3 * m := by omega
  have t2 : ((m : ℤ)).toNat = m := by omega
  rw [t1, t2]
  have hs : 5 * m + 1 - (3 * m + m + m) = 1 := by omega
  rw [hs]
  have r1 : (3 / 5 : ℚ) * ((5 * m + 1 : ℕ) : ℚ) - ((3 * m : ℕ) : ℚ) = 3 / 5 := by
    push_cast
    ring
  have r2 : (1 / 5 : ℚ) * ((5 * m + 1 : ℕ) : ℚ) - ((m : ℕ) : ℚ) = 1 / 5 := by
    push_cast
    ring
  rw [r1, r2, award, if_pos (by norm_num : (3 / 5 : ℚ) > 1 / 5 ∧ (3 / 5 : ℚ) > 1 / 5),
    award]

theorem lr_residue2 (m : ℕ) :
    lrCounts (3 / 5) (1 / 5) (1 / 5) (5 * m + 2) = (3 * m + 1, m, m + 1) := by
  have h1 : Rat.floor ((3 / 5 : ℚ) * ((5 * m + 2 : ℕ) : ℚ)) = 3 * (m : ℤ) + 1 := by
    rw [ratFloor_eq_intFloor, Int.floor_eq_iff]
    push_cast
    constructor <;> linarith
  have h2 : Rat.floor ((1 / 5 : ℚ) * ((5 * m + 2 : ℕ) : ℚ)) = (m : ℤ) := by
    rw [ratFloor_eq_intFloor, Int.floor_eq_iff]
    push_cast
    constructor <;> linarith
  simp only [lrCounts, h1, h2]
  have t1 : (3 * (m : ℤ) + 1).toNat = 3 * m + 1 := by omega
  have t2 : ((m : ℤ)).toNat = m := by omega
  rw [t1, t2]
  have hs : 5 * m + 2 - (3 * m + 1 + m + m) = 1 := by omega
  rw [hs]
  have r1 : (3 / 5 : ℚ) * ((5 * m + 2 : ℕ) : ℚ) - ((3 * m + 1 : ℕ) : ℚ) = 1 / 5 := by
    push_cast
    ring
  have r2 : (1 / 5 : ℚ) * ((5 * m + 2 : ℕ) : ℚ) - ((m : ℕ) : ℚ) = 2 / 5 := by
    push_cast
    ring
  rw [r1, r2, award,
    if_neg (by norm_num : ¬((1 / 5 : ℚ) > 2 / 5 ∧ (1 / 5 : ℚ) > 2 / 5)),
    if_neg (by norm_num : ¬((2 / 5 : ℚ) > 2 / 5)), award]

theorem lr_residue3 (m : ℕ) :
    lrCounts (3 / 5) (1 / 5) (1 / 5) (5 * m + 3) = (3 * m + 2, m, m + 1) := by
  have h1 : Rat.floor ((3 / 5 : ℚ) * ((5 * m + 3 : ℕ) : ℚ)) = 3 * (m : ℤ) + 1 := by
    rw [ratFloor_eq_intFloor, Int.floor_eq_iff]
    push_cast
    constructor <;> linarith
  have h2 : Rat.floor ((1 / 5 : ℚ) * ((5 * m + 3 : ℕ) : ℚ)) = (m : ℤ) := by
    rw [ratFloor_eq_intFloor, Int.floor_eq_iff]
    push_cast
    constructor <;> linarith
  simp only [lrCounts, h1, h2]
  have t1 : (3 * (m : ℤ) + 1).toNat = 3 * m + 1 := by omega
  have t2 : ((m : ℤ)).toNat = m := by omega
  rw [t1, t2]
  have hs : 5 * m + 3 - (3 * m + 1 + m + m) = 2 := by omega
  rw [hs]
  have r1 : (3 / 5 : ℚ) * ((5 * m + 3 : ℕ) : ℚ) - ((3 * m + 1 : ℕ) : ℚ) = 4 / 5 := by
    push_cast
    ring
  have r2 : (1 / 5 : ℚ) * ((5 * m + 3 : ℕ) : ℚ) - ((m : ℕ) : ℚ) = 3 / 5 := by
    push_cast
    ring
  rw [r1, r2, award, if_pos (by norm_num : (4 / 5 : ℚ) > 3 / 5 ∧ (4 / 5 : ℚ) > 3 / 5),
    award,
    if_neg (by norm_num : ¬((4 / 5 - 1 : ℚ) > 3 / 5 ∧ (4 / 5 - 1 : ℚ) > 3 / 5)),
    if_neg (by norm_num : ¬((3 / 5 : ℚ) > 3 / 5)), award]

theorem lr_residue4 (m : ℕ) :
    lrCounts (3 / 5) (1 / 5) (1 / 5) (5 * m + 4) = (3 * m + 2, m + 1, m + 1) := by
  have h1 : Rat.floor ((3 / 5 : ℚ) * ((5 * m + 4 : ℕ) : ℚ)) = 3 * (m : ℤ) + 2 := by
    rw [ratFloor_eq_intFloor, Int.floor_eq_iff]
    push_cast
    constructor <;> linarith
  have h2 : Rat.floor ((1 / 5 : ℚ) * ((5 * m + 4 : ℕ) : ℚ)) = (m : ℤ) := by
    rw [ratFloor_eq_intFloor, Int.floor_eq_iff]
    push_cast
    constructor <;> linarith
  simp only [lrCounts, h1, h2]
  have t1 : (3 * (m : ℤ) + 2).toNat = 3 * m + 2 := by omega
  have t2 : ((m : ℤ)).toNat = m := by omega
  rw [t1, t2]
  have hs : 5 * m + 4 - (3 * m + 2 + m + m) = 2 := by omega
  rw [hs]
  have r1 : (3 / 5 : ℚ) * ((5 * m + 4 : ℕ) : ℚ) - ((3 * m + 2 : ℕ) : ℚ) = 2 / 5 := by
    push_cast
    ring
  have r2 : (1 / 5 : ℚ) * ((5 * m + 4 : ℕ) : ℚ) - ((m : ℕ) : ℚ) = 4 / 5 := by
    push_cast
    ring
  rw [r1, r2, award,
    if_neg (by norm_num : ¬((2 / 5 : ℚ) > 4 / 5 ∧ (2 / 5 : ℚ) > 4 / 5)),
    if_neg (by norm_num : ¬((4 / 5 : ℚ) > 4 / 5)), award,
    if_neg (by norm_num : ¬((2 / 5 : ℚ) > 4 / 5 ∧ (2 / 5 : ℚ) > (4 / 5 - 1 : ℚ))),
    if_pos (by norm_num : (4 / 5 : ℚ) > (4 / 5 - 1 : ℚ)), award]

/-- lrCounts always distributes a class of size n exhaustively, with every
partition's count within one row of its proportional quota. -/
theorem lrCounts_within_one_row (n : ℕ) :
    (lrCounts (3 / 5) (1 / 5) (1 / 5) n).1 + (lrCounts (3 / 5) (1 / 5) (1 / 5) n).2.1 +
        (lrCounts (3 / 5) (1 / 5) (1 / 5) n).2.2 = n ∧
      |((lrCounts (3 / 5) (1 / 5) (1 / 5) n).1 : ℚ) - 3 / 5 * n| < 1 ∧
      |((lrCounts (3 / 5) (1 / 5) (1 / 5) n).2.1 : ℚ) - 1 / 5 * n| < 1 ∧
      |((lrCounts (3 / 5) (1 / 5) (1 / 5) n).2.2 : ℚ) - 1 / 5 * n| < 1 := by
  have h5 : n % 5 = 0 ∨ n % 5 = 1 ∨ n % 5 = 2 ∨ n % 5 = 3 ∨ n % 5 = 4 := by omega
  rcases h5 with h | h | h | h | h
  · obtain ⟨m, rfl⟩ : ∃ m, n = 5 * m := ⟨n / 5, by omega⟩
    rw [lr_residue0]
    dsimp only
    refine ⟨by omega, ?_, ?_, ?_⟩ <;> (rw [abs_lt]; constructor <;> (push_cast; linarith))
  · obtain ⟨m, rfl⟩ : ∃ m, n = 5 * m + 1 := ⟨n / 5, by omega⟩
    rw [lr_residue1]
    dsimp only
    refine ⟨by omega, ?_, ?_, ?_⟩ <;> (rw [abs_lt]; constructor <;> (push_cast; linarith))
  · obtain ⟨m, rfl⟩ : ∃ m, n = 5 * m + 2 := ⟨n / 5, by omega⟩
    rw [lr_residue2]
    dsimp only
    refine ⟨by omega, ?_, ?_, ?_⟩ <;> (rw [abs_lt]; constructor <;> (push_cast; linarith))
  · obtain ⟨m, rfl⟩ : ∃ m, n = 5 * m + 3 := ⟨n / 5, by omega⟩
    rw [lr_residue3]
    dsimp only
    refine ⟨by omega, ?_, ?_, ?_⟩ <;> (rw [abs_lt]; constructor <;> (push_cast; linarith))
  · obtain ⟨m, rfl⟩ : ∃ m, n = 5 * m + 4 := ⟨n / 5, by omega⟩
    rw [lr_residue4]
    dsimp only
    refine ⟨by omega, ?_, ?_, ?_⟩ <;> (rw [abs_lt]; constructor <;> (push_cast; linarith))

/-- Claim C3 counterexample: a 101-row dataset (nine label classes of 8 rows and
one class, label 9, of 29 rows) splits successfully, yet class 9's fraction
of the validation partition is 40 percent against 28.7 percent overall — a
deviation above 11 percentage points, far beyond the claimed two. -/
theorem class_balance_bound_counterexample :
    counterDS.rows.length = 101 ∧
      100 ≤ counterDS.rows.length ∧
      (split counterDS labelField (3 / 5) (1 / 5) (1 / 5)).map
          (fun p => classFraction counterLabels p.val 9) = .ok (2 / 5) ∧
      fullFraction counterLabels 9 = 29 / 101 ∧
      ¬|(2 : ℚ) / 5 - 29 / 101| ≤ 2 / 100 ∧
      (11 : ℚ) / 100 < |(2 : ℚ) / 5 - 29 / 101| := by
  refine ⟨by with_unfolding_all rfl, ?_,
    by with_unfolding_all rfl, by with_unfolding_all rfl, ?_, ?_⟩
  · have h : counterDS.rows.length = 101 := by with_unfolding_all rfl
    rw [h]
    norm_num
  · rw [abs_of_pos (by norm_num : (0 : ℚ) < 2 / 5 - 29 / 101)]
    norm_num
  · rw [abs_of_pos (by norm_num : (0 : ℚ) < 2 / 5 - 29 / 101)]
    norm_num

/-- Claim C3 amended: each class's count in each partition is always within one
row of its proportional quota (and the three counts are exhaustive); on the
modelled 299-row dataset (203 survivors, 96 deaths) the 60/20/20 split
yields partitions of sizes 180/59/60 whose class balances deviate from the
overall 203/299 vs 96/299 balance by at most 2 percentage points.  The
original uniform two-point bound for every dataset of size at least 100 is
refuted by the recorded counterexample. -/
theorem class_balance_amended :
    (∀ n : ℕ,
      (lrCounts (3 / 5) (1 / 5) (1 / 5) n).1 + (lrCounts (3 / 5) (1 / 5) (1 / 5) n).2.1 +
          (lrCounts (3 / 5) (1 / 5) (1 / 5) n).2.2 = n ∧
        |((lrCounts (3 / 5) (1 / 5) (1 / 5) n).1 : ℚ) - 3 / 5 * n| < 1 ∧
        |((lrCounts (3 / 5) (1 / 5) (1 / 5) n).2.1 : ℚ) - 1 / 5 * n| < 1 ∧
        |((lrCounts (3 / 5) (1 / 5) (1 / 5) n).2.2 : ℚ) - 1 / 5 * n| < 1) ∧
      (split heartDS labelField (3 / 5) (1 / 5) (1 / 5)).map
          (fun p => (p.train.length, p.val.length, p.test.length)) = .ok (180, 59, 60) ∧
      (split heartDS labelField (3 / 5) (1 / 5) (1 / 5)).map
          (fun p =>
            (classFraction heartLabels p.train 0, classFraction heartLabels p.val 0,
             classFraction heartLabels p.test 0, classFraction heartLabels p.train 1,
             classFraction heartLabels p.val 1, classFraction heartLabels p.test 1)) =
        .ok (61 / 90, 40 / 59, 41 / 60, 29 / 90, 19 / 59, 19 / 60) ∧
      fullFraction heartLabels 0 = 203 / 299 ∧
      fullFraction heartLabels 1 = 96 / 299 ∧
      |(61 : ℚ) / 90 - 203 / 299| ≤ 2 / 100 ∧
      |(40 : ℚ) / 59 - 203 / 299| ≤ 2 / 100 ∧
      |(41 : ℚ) / 60 - 203 / 299| ≤ 2 / 100 ∧
      |(29 : ℚ) / 90 - 96 / 299| ≤ 2 / 100 ∧
      |(19 : ℚ) / 59 - 96 / 299| ≤ 2 / 100 ∧
      |(19 : ℚ) / 60 - 96 / 299| ≤ 2 / 100 := by
  refine ⟨lrCounts_within_one_row, by with_unfolding_all rfl, by with_unfolding_all rfl,
    by with_unfolding_all rfl, by with_unfolding_all rfl, ?_, ?_, ?_, ?_, ?_, ?_⟩ <;>
    (rw [abs_le]; constructor <;> norm_num)

/-- Witness for C10: the rename succeeds on a junk 13-name header without
inspecting it. -/
theorem rename_by_position_succeeds_witness :
    renameColumns junkHeaderTable = .ok ⟨schemaNames, junkHeaderTable.rows⟩ :=
  rename_by_position_succeeds junkHeaderTable rfl
